import Mathlib

/-!
Verification development for the `your` format-conversion writer engine.

The writer converts streamed time-frequency observation data between a flat
Filterbank representation and a PSRFITS subintegration-table representation,
applying a selectable sub-window (spectra range, channel range).

The engine itself (the `Writer` class and its collaborators) is not part of
the example material shipped with the repository, so the definitions below
are modelled from the specification: window resolution, the chunked data
pump, the Filterbank and PSRFITS encoders, bit packing, and the
observation-info builder. Sample values are natural numbers bounded by the
bit depth; rational numbers stand in for the double-precision header fields.
-/

namespace your

/-- Modelled from the spec: the normalized metadata model (`UnifiedHeader`)
populated by the external reader and consumed read-only by the writer.
Only the fields the writer engine consumes are modelled. -/
structure UnifiedHeader where
  nchans : Nat
  nspectra : Nat
  nbits : Nat
  fch1 : ℚ
  foff : ℚ
  tsamp : ℚ
  tstart : ℚ
  npol : Nat
  source_name : String
deriving DecidableEq

/-- Modelled from the spec: the external reader (`Your` in the repository)
exposing a unified header and a `get_data(start, count)` accessor. Sample
data is modelled as a total function from (spectrum index, channel index)
to the stored sample value. -/
structure Your where
  your_header : UnifiedHeader
  dat : Nat → Nat → Nat

/-- Modelled from the spec: the error taxonomy of the writer engine.
`invalidWindow` is the ConfigurationError/InvalidWindow of the spec. -/
inductive WriterError where
  | invalidWindow
  | unsupportedBitDepth
  | outOfRange
deriving DecidableEq

deriving instance DecidableEq for Except

/-- Modelled from the spec: a resolved output window
`{start, count, cmin, cmax}`. -/
structure Window where
  nstart : Nat
  nsamp : Nat
  cmin : Nat
  cmax : Nat
deriving DecidableEq

/-- The row of sample values of spectrum `i` over all native channels. -/
def Your.rowAt (y : Your) (i : Nat) : List Nat :=
  (List.range y.your_header.nchans).map fun j => y.dat i j

/-- The `count` rows of sample values starting at spectrum `start`. -/
def Your.rows (y : Your) (start count : Nat) : List (List Nat) :=
  (List.range count).map fun i => y.rowAt (start + i)

/-- Modelled from the spec: the reader's data-access operation
`read(start_index, count)`, a 2D sample array (spectra × channels), failing
with OutOfRange when `start_index + count` exceeds the native spectra
count. -/
def Your.get_data (y : Your) (start count : Nat) :
    Except WriterError (List (List Nat)) :=
  if start + count ≤ y.your_header.nspectra then .ok (y.rows start count)
  else .error .outOfRange

/-- Modelled from the spec: the WindowSelector. Given native spectra count
`N`, native channel count `C` and the (optional) requested bounds, resolve
the window. `start` defaults to 0, `count` to `N - start`, `cmin` to 0,
`cmax` to `C`. Fails with InvalidWindow when `start ≥ N`, `count ≤ 0`,
`cmin ≥ cmax`, or `cmax > C`; the resolved window also has to fit the file
(`start + count ≤ N`), since the selector never clamps. -/
def resolveWindow (N C : Nat) (nstart : Option Nat) (nsamp : Option Int)
    (c_min c_max : Option Nat) : Except WriterError Window :=
  let start := nstart.getD 0
  let count : Int := nsamp.getD ((N : Int) - (start : Int))
  let cmin := c_min.getD 0
  let cmax := c_max.getD C
  if N ≤ start then .error .invalidWindow
  else if count ≤ 0 then .error .invalidWindow
  else if cmax ≤ cmin then .error .invalidWindow
  else if C < cmax then .error .invalidWindow
  else if (N : Int) < (start : Int) + count then .error .invalidWindow
  else .ok { nstart := start, nsamp := count.toNat, cmin := cmin, cmax := cmax }

/-- Modelled from the spec: the writer object. It borrows the external
reader and owns the window/output configuration; the configuration fields
are plain attributes (the caller may reassign them between construction and
a write call; a write call reads whatever values are current). -/
structure Writer where
  source : Your
  nstart : Option Nat
  nsamp : Option Int
  c_min : Option Nat
  c_max : Option Nat
  outdir : String
  outname : String
  chunk_size : Nat
  nsblk : Nat

/-- The window resolution a write call performs first, on the current
attribute values. -/
def Writer.resolveWindow (w : Writer) : Except WriterError Window :=
  your.resolveWindow w.source.your_header.nspectra w.source.your_header.nchans
    w.nstart w.nsamp w.c_min w.c_max

/-- Split a list into consecutive chunks. For `1 ≤ n` every chunk has
length `n` except possibly the last, which is nonempty. -/
def chunksOf (n : Nat) : List α → List (List α)
  | [] => []
  | x :: xs => (x :: xs.take (n - 1)) :: chunksOf n (xs.drop (n - 1))
  termination_by l => l.length
  decreasing_by simp only [List.length_drop, List.length_cons]; omega

/-- The value of a digit string in base `B`, most-significant digit first.
Used both for packing sub-byte samples into one byte (base `2 ^ nbits`) and
for multi-byte fixed-width samples (base 256). -/
def packGroup (B : Nat) : List Nat → Nat
  | [] => 0
  | d :: rest => d * B ^ rest.length + packGroup B rest

/-- The `n` base-`B` digits of a value, most-significant digit first. -/
def unpackGroup (B n : Nat) (v : Nat) : List Nat :=
  match n with
  | 0 => []
  | m + 1 => v / B ^ m :: unpackGroup B m (v % B ^ m)

/-- Pad a list with trailing zeros to length `n`. -/
def padTo (n : Nat) (l : List Nat) : List Nat :=
  l ++ List.replicate (n - l.length) 0

/-- Modelled from the spec: sub-byte packing. For bit depth `nbits` with
`8 / nbits` samples per byte, consecutive samples are packed into each byte
most-significant-sample-first; the final byte of a batch whose length is
not a multiple of `8 / nbits` is zero-padded in its unused low bits. -/
def packBits (nbits : Nat) (s : List Nat) : List Nat :=
  (chunksOf (8 / nbits) s).map fun c => packGroup (2 ^ nbits) (padTo (8 / nbits) c)

/-- Modelled from the spec: sub-byte unpacking, the inverse direction read
by the reader: each byte yields `8 / nbits` samples,
most-significant-sample-first. -/
def unpackBits (nbits : Nat) (bytes : List Nat) : List Nat :=
  bytes.flatMap fun b => unpackGroup (2 ^ nbits) (8 / nbits) b

/-- A fixed-width sample of `width` bytes, little-endian byte order. -/
def encodeFixed (width v : Nat) : List Nat :=
  (unpackGroup 256 width v).reverse

/-- Decode one fixed-width little-endian sample. -/
def decodeFixed (bytes : List Nat) : Nat :=
  packGroup 256 bytes.reverse

/-- Modelled from the spec: serialize a flat batch of samples at bit depth
`nbits`: sub-byte depths pack several samples per byte, depths of 8 bits
and above write each sample as `nbits / 8` fixed-width bytes. -/
def encodeSamples (nbits : Nat) (s : List Nat) : List Nat :=
  if nbits < 8 then packBits nbits s
  else s.flatMap fun v => encodeFixed (nbits / 8) v

/-- Decode a serialized sample stream back into `total` samples. -/
def decodeSamples (nbits total : Nat) (bytes : List Nat) : List Nat :=
  if nbits < 8 then (unpackBits nbits bytes).take total
  else (chunksOf (nbits / 8) bytes).map decodeFixed

/-- Restrict each spectrum row to the channel window `[cmin, cmax)`. -/
def sliceChans (cmin cmax : Nat) (rows : List (List Nat)) : List (List Nat) :=
  rows.map fun r => (r.drop cmin).take (cmax - cmin)

/-- Modelled from the spec: the ChunkedDataPump. Starting at `cursor` with
`remaining` spectra to go, request `min(chunk_size, remaining)` spectra
from the reader, slice the channel dimension to `[cmin, cmax)`, emit the
slice, advance, and loop until nothing remains. A degenerate chunk size of
0 behaves like 1 so that progress is always made. -/
def pumpLoop (y : Your) (cmin cmax csize cursor remaining : Nat) :
    Except WriterError (List (List Nat)) :=
  match remaining with
  | 0 => .ok []
  | r + 1 => do
      let b := min (max csize 1) (r + 1)
      let batch ← y.get_data cursor b
      let rest ← pumpLoop y cmin cmax csize (cursor + b) (r + 1 - b)
      .ok (sliceChans cmin cmax batch ++ rest)
  termination_by remaining
  decreasing_by omega

/-- Modelled from the spec: the execution environment of one write call:
the wall-clock time the call happens at (it feeds only the PSRFITS
file-creation timestamp; a Filterbank write ignores it). -/
structure Env where
  now : ℚ

/-- Modelled from the spec: the flat Filterbank output header, computed by
the encoder's `open()` from the UnifiedHeader with the channel count
replaced by `cmax - cmin`, the first-channel frequency shifted by
`cmin × foff`, and the spectra count replaced by the resolved window
count. -/
structure FilHeader where
  nchans : Nat
  nspectra : Nat
  nbits : Nat
  fch1 : ℚ
  foff : ℚ
  tsamp : ℚ
  tstart : ℚ
  npol : Nat
  source_name : String
deriving DecidableEq

def filOutHeader (h : UnifiedHeader) (win : Window) : FilHeader :=
  { nchans := win.cmax - win.cmin
    nspectra := win.nsamp
    nbits := h.nbits
    fch1 := h.fch1 + (win.cmin : ℚ) * h.foff
    foff := h.foff
    tsamp := h.tsamp
    tstart := h.tstart
    npol := h.npol
    source_name := h.source_name }

/-- Modelled from the spec: a written Filterbank file: the flat header
block followed by the raw sample byte stream. -/
structure FilFile where
  header : FilHeader
  dataBytes : List Nat
deriving DecidableEq

/-- Modelled from the spec: `to_fil` / `write_filterbank`. Resolve the
window once, pump the windowed data in chunks, serialize header and sample
bytes. Any window error aborts before any output exists. -/
def Writer.to_fil (w : Writer) (env : Env) : Except WriterError FilFile := do
  let win ← w.resolveWindow
  let rows ← pumpLoop w.source win.cmin win.cmax w.chunk_size win.nstart win.nsamp
  .ok { header := filOutHeader w.source.your_header win
        dataBytes := encodeSamples w.source.your_header.nbits rows.flatten }

/-- The sample rows stored in a written Filterbank file, as its reader
decodes them: the byte stream decoded at the header's bit depth and
regrouped into spectra of `header.nchans` samples. -/
def FilFile.decodedRows (f : FilFile) : List (List Nat) :=
  chunksOf f.header.nchans
    (decodeSamples f.header.nbits (f.header.nspectra * f.header.nchans) f.dataBytes)

/-- Reading a written Filterbank file back through the reader interface. -/
def FilFile.get_data (f : FilFile) (start count : Nat) :
    Except WriterError (List (List Nat)) :=
  if start + count ≤ f.header.nspectra then
    .ok ((f.decodedRows.drop start).take count)
  else .error .outOfRange

/-- Modelled from the spec: the PSRFITS-specific derived observation info.
Only the fields the claims concern are modelled; the start-time MJD is
split into the integer day `stt_imjd`, the whole seconds of the fractional
day `stt_smjd`, and the sub-second remainder `stt_offs`. -/
structure ObsInfo where
  stt_imjd : ℤ
  stt_smjd : ℤ
  stt_offs : ℚ
  scan_len : ℚ
  chan_bw : ℚ
  nchan : Nat
  nbits : Nat
  file_date : ℚ
  src_name : String
deriving DecidableEq

/-- Modelled from the spec: the ObservationInfoBuilder, a pure transform
`UnifiedHeader × Window → ObsInfo`. The MJD is split day-first: integer
day, then the fractional day scaled to seconds, truncated to whole
seconds, leaving the sub-second remainder. -/
def mkObsInfo (h : UnifiedHeader) (win : Window) (now : ℚ) : ObsInfo :=
  let imjd : ℤ := ⌊h.tstart⌋
  let fracday : ℚ := h.tstart - (imjd : ℚ)
  let daysec : ℚ := fracday * 86400
  let smjd : ℤ := ⌊daysec⌋
  { stt_imjd := imjd
    stt_smjd := smjd
    stt_offs := daysec - (smjd : ℚ)
    scan_len := (win.nsamp : ℚ) * h.tsamp
    chan_bw := h.foff
    nchan := win.cmax - win.cmin
    nbits := h.nbits
    file_date := now
    src_name := h.source_name }

/-- Modelled from the spec: one subintegration row: the declared count of
real (valid) spectra in the row, and the data block of exactly `nsblk`
spectra, a short final group zero-padded. -/
structure SubInt where
  nvalid : Nat
  data : List (List Nat)
deriving DecidableEq

/-- Modelled from the spec: regroup the pumped rows into subint-sized
groups of `nsblk` spectra; the final group, if short, is zero-padded to
`nsblk` spectra of `nchanOut` zero samples in the data block, while its
declared valid count keeps the real sample count. -/
def mkSubints (nsblk nchanOut : Nat) (rows : List (List Nat)) : List SubInt :=
  (chunksOf nsblk rows).map fun g =>
    { nvalid := g.length
      data := g ++ List.replicate (nsblk - g.length) (List.replicate nchanOut 0) }

/-- Modelled from the spec: a written PSRFITS file: primary header
(observation info) plus the subintegration table. -/
structure FitsFile where
  info : ObsInfo
  nsblk : Nat
  subints : List SubInt
deriving DecidableEq

/-- Modelled from the spec: `to_fits` / `write_psrfits`. Resolve the window
once; encode only bit depths that have a declared column format (8, 16 or
32 bits), failing with UnsupportedBitDepth otherwise; build the
observation info; pump the windowed data; regroup into subints. -/
def Writer.to_fits (w : Writer) (env : Env) : Except WriterError FitsFile := do
  let win ← w.resolveWindow
  if w.source.your_header.nbits = 8 ∨ w.source.your_header.nbits = 16 ∨
      w.source.your_header.nbits = 32 then
    let info := mkObsInfo w.source.your_header win env.now
    let rows ← pumpLoop w.source win.cmin win.cmax w.chunk_size win.nstart win.nsamp
    .ok { info := info
          nsblk := w.nsblk
          subints := mkSubints w.nsblk (win.cmax - win.cmin) rows }
  else .error .unsupportedBitDepth

/-- Attribute reassignment after construction: the writer object's
configuration fields are plain mutable attributes. -/
def Writer.setOutname (w : Writer) (s : String) : Writer := { w with outname := s }

def Writer.setCMin (w : Writer) (v : Option Nat) : Writer := { w with c_min := v }

def Writer.setCMax (w : Writer) (v : Option Nat) : Writer := { w with c_max := v }

/-- The world a conversion call runs in: the borrowed source reader and the
files written so far. A write call may only append an output file; the
source is borrowed read-only. -/
structure World where
  source : Your
  filFiles : List (String × FilFile)
  fitsFiles : List (String × FitsFile)

/-- One `to_fil` call as a step on the world: on success the produced file
is added under `<outdir>/<outname>.fil`. -/
def writeFilWorld (world : World) (w : Writer) (env : Env) :
    Except WriterError World :=
  match ({ w with source := world.source } : Writer).to_fil env with
  | .ok f => .ok { world with
      filFiles := world.filFiles ++ [(w.outdir ++ "/" ++ w.outname ++ ".fil", f)] }
  | .error e => .error e

/-- One `to_fits` call as a step on the world. -/
def writeFitsWorld (world : World) (w : Writer) (env : Env) :
    Except WriterError World :=
  match ({ w with source := world.source } : Writer).to_fits env with
  | .ok f => .ok { world with
      fitsFiles := world.fitsFiles ++ [(w.outdir ++ "/" ++ w.outname ++ ".fits", f)] }
  | .error e => .error e

/-! ### Concrete example inputs (used by the witness theorems) -/

/-- The example source header of the shipped notebook (rational stand-ins
for the floating-point fields; the start time has a one-third fractional
day so the MJD split is exercised). -/
def exHeader : UnifiedHeader :=
  { nchans := 90, nspectra := 100, nbits := 8, fch1 := 1455, foff := -1,
    tsamp := 1, tstart := 58682 + 1/3, npol := 1, source_name := "src1" }

def exYour : Your := { your_header := exHeader, dat := fun i j => (i * 7 + j) % 256 }

/-- The notebook's writer configuration: `c_max = 100` against 90 native
channels. -/
def exWriterBad : Writer :=
  { source := exYour, nstart := some 0, nsamp := some 10, c_min := some 10,
    c_max := some 100, outdir := ".", outname := "filfromfil", chunk_size := 3,
    nsblk := 4 }

/-- The corrected configuration `{cmin = 10, cmax = 90}` of the spec's
concrete scenario. -/
def exWriter : Writer := { exWriterBad with c_max := some 90 }

/-- A tiny 2-bit source exercising sub-byte packing through the writer. -/
def exHeader2 : UnifiedHeader :=
  { nchans := 3, nspectra := 5, nbits := 2, fch1 := 10, foff := -1,
    tsamp := 1, tstart := 0, npol := 1, source_name := "tiny" }

def exYour2 : Your := { your_header := exHeader2, dat := fun i j => (i + j) % 4 }

def exWriter2 : Writer :=
  { source := exYour2, nstart := some 1, nsamp := some 3, c_min := some 1,
    c_max := some 3, outdir := ".", outname := "tiny", chunk_size := 2, nsblk := 4 }

def exEnv : Env := { now := 59155 }

def exWorld : World := { source := exYour, filFiles := [], fitsFiles := [] }

/-! ### Window-resolution lemmas -/

theorem resolveWindow_error_of_bad (N C : Nat) (ns : Option Nat) (sa : Option Int)
    (cn cx : Option Nat)
    (h : C < cx.getD C ∨ N ≤ ns.getD 0 ∨
      sa.getD ((N : Int) - (ns.getD 0 : Nat)) ≤ 0 ∨ cx.getD C ≤ cn.getD 0) :
    resolveWindow N C ns sa cn cx = .error .invalidWindow := by
  simp only [resolveWindow]
  split_ifs with h1 h2 h3 h4 h5 <;> try rfl
  rcases h with h | h | h | h
  · exact absurd h h4
  · exact absurd h h1
  · exact absurd h h2
  · exact absurd h h3

theorem resolveWindow_ok_inv (N C : Nat) (ns : Option Nat) (sa : Option Int)
    (cn cx : Option Nat) (win : Window)
    (h : resolveWindow N C ns sa cn cx = .ok win) :
    win.nstart + win.nsamp ≤ N ∧ 1 ≤ win.nsamp ∧ win.cmin < win.cmax ∧
      win.cmax ≤ C := by
  simp only [resolveWindow] at h
  split_ifs at h with h1 h2 h3 h4 h5 <;> try exact Except.noConfusion h
  rw [Except.ok.injEq] at h
  subst h
  refine ⟨?_, ?_, ?_, ?_⟩ <;> simp only [] <;> omega

/-! ### Claims C1 and C5: window validation and defaulting -/

/-- Claim C1: whenever the requested bounds have `cmax > C`, `start ≥ N`,
`count ≤ 0` or `cmin ≥ cmax` (against native spectra count `N` and native
channel count `C`), window resolution fails with the InvalidWindow
configuration error, and both write calls fail the same way without
producing any output file. -/
theorem c1_invalid_window_rejected (w : Writer) (env : Env)
    (h : w.source.your_header.nchans < w.c_max.getD w.source.your_header.nchans ∨
      w.source.your_header.nspectra ≤ w.nstart.getD 0 ∨
      w.nsamp.getD ((w.source.your_header.nspectra : Int) - (w.nstart.getD 0 : Nat)) ≤ 0 ∨
      w.c_max.getD w.source.your_header.nchans ≤ w.c_min.getD 0) :
    w.resolveWindow = .error .invalidWindow ∧
    w.to_fil env = .error .invalidWindow ∧
    w.to_fits env = .error .invalidWindow := by
  have hr : w.resolveWindow = .error .invalidWindow :=
    resolveWindow_error_of_bad _ _ _ _ _ _ h
  refine ⟨hr, ?_, ?_⟩
  · simp only [Writer.to_fil, hr]
    rfl
  · simp only [Writer.to_fits, hr]
    rfl

/-- Witness for claim C1, at the notebook's own configuration: requested
`cmax = 100` against 90 native channels is rejected, for the resolution
step and for both write calls. -/
theorem c1_witness :
    exWriterBad.resolveWindow = .error .invalidWindow ∧
    exWriterBad.to_fil exEnv = .error .invalidWindow ∧
    exWriterBad.to_fits exEnv = .error .invalidWindow :=
  c1_invalid_window_rejected exWriterBad exEnv (by decide)

/-- Claim C5: an unspecified `start` defaults to 0, an unspecified `count`
to `N - start`, unspecified channel bounds to `[0, C)`; and a fully
specified window whose count is exactly `N - start` (touching the end of
the file) is accepted, not rejected. -/
theorem c5_window_defaulting (N C : Nat) (hN : 0 < N) (hC : 0 < C) :
    resolveWindow N C none none none none = .ok ⟨0, N, 0, C⟩ ∧
    (∀ s, s < N → resolveWindow N C (some s) none none none = .ok ⟨s, N - s, 0, C⟩) ∧
    (∀ s cmin cmax, s < N → cmin < cmax → cmax ≤ C →
      resolveWindow N C (some s) (some ((N : Int) - (s : Nat))) (some cmin) (some cmax) =
        .ok ⟨s, N - s, cmin, cmax⟩) := by
  refine ⟨?_, fun s hs => ?_, fun s cmin cmax hs hcc hcx => ?_⟩ <;>
    simp only [resolveWindow, Option.getD_none, Option.getD_some] <;>
    rw [if_neg (by omega), if_neg (by omega), if_neg (by omega), if_neg (by omega),
      if_neg (by omega)] <;>
    simp only [Except.ok.injEq, Window.mk.injEq, true_and, and_true] <;>
    omega

/-- Witness for claim C5 at the notebook's file bounds `N = 100`,
`C = 90`: the all-default window resolves to the full file, and the
end-touching window `start = 40`, `count = 60` is accepted. -/
theorem c5_witness :
    resolveWindow 100 90 none none none none = .ok ⟨0, 100, 0, 90⟩ ∧
    (∀ s, s < 100 → resolveWindow 100 90 (some s) none none none =
      .ok ⟨s, 100 - s, 0, 90⟩) ∧
    (∀ s cmin cmax, s < 100 → cmin < cmax → cmax ≤ 90 →
      resolveWindow 100 90 (some s) (some ((100 : Int) - (s : Nat))) (some cmin)
        (some cmax) = .ok ⟨s, 100 - s, cmin, cmax⟩) :=
  c5_window_defaulting 100 90 (by decide) (by decide)

/-! ### Digit-packing lemmas -/

theorem packGroup_lt (B : Nat) (l : List Nat) (hB : 0 < B)
    (h : ∀ x ∈ l, x < B) : packGroup B l < B ^ l.length := by
  induction l with
  | nil => simpa [packGroup] using Nat.one_pos
  | cons d rest ih =>
    have hd : d < B := h d (List.mem_cons_self d rest)
    have hr := ih fun x hx => h x (List.mem_cons_of_mem _ hx)
    have hpow : 0 < B ^ rest.length := pow_pos hB _
    simp only [packGroup, List.length_cons, pow_succ]
    calc d * B ^ rest.length + packGroup B rest
        < d * B ^ rest.length + B ^ rest.length := Nat.add_lt_add_left hr _
      _ = (d + 1) * B ^ rest.length := by ring
      _ ≤ B * B ^ rest.length := Nat.mul_le_mul_right _ hd
      _ = B ^ rest.length * B := Nat.mul_comm _ _

theorem unpackGroup_length (B n : Nat) : ∀ v, (unpackGroup B n v).length = n := by
  induction n with
  | zero => intro v; rfl
  | succ m ih => intro v; simp [unpackGroup, ih]

theorem unpack_packGroup (B : Nat) (l : List Nat) (hB : 0 < B)
    (h : ∀ x ∈ l, x < B) :
    unpackGroup B l.length (packGroup B l) = l := by
  induction l with
  | nil => rfl
  | cons d rest ih =>
    have hd : d < B := h d (List.mem_cons_self d rest)
    have hr : packGroup B rest < B ^ rest.length :=
      packGroup_lt B rest hB fun x hx => h x (List.mem_cons_of_mem _ hx)
    have hpos : 0 < B ^ rest.length := pow_pos hB _
    have hcomm : d * B ^ rest.length + packGroup B rest
        = packGroup B rest + d * B ^ rest.length := Nat.add_comm _ _
    simp only [List.length_cons, unpackGroup, packGroup, hcomm,
      Nat.add_mul_div_right _ _ hpos, Nat.add_mul_mod_self_right,
      Nat.div_eq_of_lt hr, Nat.mod_eq_of_lt hr, Nat.zero_add]
    exact congrArg (d :: ·) (ih fun x hx => h x (List.mem_cons_of_mem _ hx))

theorem pack_unpackGroup (B : Nat) (hB : 0 < B) :
    ∀ n v, v < B ^ n → packGroup B (unpackGroup B n v) = v := by
  intro n
  induction n with
  | zero =>
    intro v hv
    simp only [pow_zero, Nat.lt_one_iff] at hv
    simp [unpackGroup, packGroup, hv]
  | succ m ih =>
    intro v hv
    have hpos : 0 < B ^ m := pow_pos hB m
    have hmod : v % B ^ m < B ^ m := Nat.mod_lt _ hpos
    simp only [unpackGroup, packGroup, unpackGroup_length, ih (v % B ^ m) hmod]
    rw [Nat.mul_comm (v / B ^ m) (B ^ m)]
    exact Nat.div_add_mod v (B ^ m)

theorem packGroup_append_zeros (B : Nat) (l : List Nat) (k : Nat) :
    packGroup B (l ++ List.replicate k 0) = packGroup B l * B ^ k := by
  induction l with
  | nil =>
    simp only [List.nil_append, packGroup, Nat.zero_mul]
    induction k with
    | zero => rfl
    | succ m ih => simp [List.replicate_succ, packGroup, ih]
  | cons d rest ih =>
    rw [List.cons_append]
    rw [show packGroup B (d :: (rest ++ List.replicate k 0)) =
      d * B ^ (rest ++ List.replicate k 0).length +
        packGroup B (rest ++ List.replicate k 0) from rfl]
    rw [show packGroup B (d :: rest) = d * B ^ rest.length + packGroup B rest from rfl]
    rw [ih, List.length_append, List.length_replicate, pow_add]
    ring

/-! ### Chunking lemmas -/

theorem chunksOf_nil (n : Nat) : chunksOf n ([] : List α) = [] := by
  rw [chunksOf]

theorem chunksOf_cons (n : Nat) (x : α) (xs : List α) :
    chunksOf n (x :: xs) = (x :: xs.take (n - 1)) :: chunksOf n (xs.drop (n - 1)) := by
  rw [chunksOf]

theorem chunksOf_eq_cons (n : Nat) (hn : 1 ≤ n) (l : List α) (hl : l ≠ []) :
    chunksOf n l = l.take n :: chunksOf n (l.drop n) := by
  obtain ⟨m, rfl⟩ : ∃ m, n = m + 1 := ⟨n - 1, by omega⟩
  cases l with
  | nil => exact absurd rfl hl
  | cons x xs => simp [chunksOf_cons, List.take_succ_cons, List.drop_succ_cons]

theorem list_chunk_induction (n : Nat) (P : List α → Prop) (hn : 1 ≤ n)
    (hnil : P ([] : List α))
    (hstep : ∀ l : List α, l ≠ [] → P (l.drop n) → P l) :
    ∀ l : List α, P l := by
  intro l
  generalize hlen : l.length = len
  induction len using Nat.strong_induction_on generalizing l with
  | _ len ih =>
    cases l with
    | nil => exact hnil
    | cons x xs =>
      apply hstep _ (by simp)
      cases hlen
      exact ih ((x :: xs).drop n).length (by simp [List.length_drop]; omega) _ rfl

theorem chunksOf_eq_nil_iff (n : Nat) (l : List α) : chunksOf n l = [] ↔ l = [] := by
  cases l with
  | nil => simp [chunksOf_nil]
  | cons x xs => simp [chunksOf_cons]

theorem chunksOf_length (n : Nat) (hn : 1 ≤ n) (l : List α) :
    (chunksOf n l).length = (l.length + n - 1) / n := by
  induction l using list_chunk_induction n _ hn with
  | hnil =>
    rw [chunksOf_nil]
    simp only [List.length_nil, Nat.zero_add]
    exact (Nat.div_eq_of_lt (by omega)).symm
  | hstep l hl ih =>
    rw [chunksOf_eq_cons n hn l hl, List.length_cons, ih, List.length_drop]
    rcases le_or_lt l.length n with hle | hlt
    · have hlpos : 0 < l.length := List.length_pos.mpr hl
      have h1 : l.length - n = 0 := by omega
      rw [h1]
      rw [Nat.div_eq_of_lt (show 0 + n - 1 < n by omega)]
      rw [Nat.div_eq_of_lt_le (show 1 * n ≤ l.length + n - 1 by omega)
        (show l.length + n - 1 < (1 + 1) * n by omega)]
    · have h1 : l.length - n + n - 1 = l.length - 1 := by omega
      have h2 : l.length + n - 1 = l.length - 1 + n := by omega
      rw [h1, h2, Nat.add_div_right _ (by omega)]

theorem chunksOf_mem_length_le (n : Nat) (hn : 1 ≤ n) :
    ∀ l : List α, ∀ c ∈ chunksOf n l, c.length ≤ n := by
  refine list_chunk_induction n _ hn ?_ ?_
  · intro c hc
    rw [chunksOf_nil] at hc
    cases hc
  · intro l hl ih c hc
    rw [chunksOf_eq_cons n hn l hl] at hc
    rcases List.mem_cons.mp hc with rfl | hc
    · exact List.length_take_le n l
    · exact ih c hc

theorem chunksOf_flatten (k : Nat) (hk : 1 ≤ k) (rows : List (List α))
    (h : ∀ r ∈ rows, r.length = k) : chunksOf k rows.flatten = rows := by
  induction rows with
  | nil => simp [chunksOf_nil]
  | cons r rest ih =>
    have hr : r.length = k := h r (List.mem_cons_self r rest)
    have hne : r ++ rest.flatten ≠ [] := by
      intro he
      have : r = [] := (List.append_eq_nil.mp he).1
      rw [this] at hr
      simp at hr
      omega
    rw [List.flatten_cons, chunksOf_eq_cons k hk _ hne, List.take_left' hr,
      List.drop_left' hr, ih fun x hx => h x (List.mem_cons_of_mem _ hx)]

theorem flatten_map_padTo_chunksOf (n : Nat) (hn : 1 ≤ n) :
    ∀ s : List Nat,
      ∃ k, ((chunksOf n s).map (padTo n)).flatten = s ++ List.replicate k 0 := by
  refine list_chunk_induction n _ hn ?_ ?_
  · exact ⟨0, by simp [chunksOf_nil]⟩
  · intro s hs ih
    obtain ⟨k, hk⟩ := ih
    rw [chunksOf_eq_cons n hn s hs]
    rcases le_or_lt s.length n with hle | hlt
    · have hdrop : s.drop n = [] := List.drop_eq_nil_of_le hle
      refine ⟨n - s.length, ?_⟩
      rw [hdrop, chunksOf_nil]
      simp [padTo, List.take_of_length_le hle]
    · refine ⟨k, ?_⟩
      have htk : (s.take n).length = n := by
        rw [List.length_take]
        omega
      rw [List.map_cons, List.flatten_cons, hk, padTo, htk, Nat.sub_self,
        List.replicate_zero, List.append_nil, ← List.append_assoc,
        List.take_append_drop]

theorem chunksOf_getLast?_mod (n : Nat) (hn : 1 ≤ n) :
    ∀ l : List α, ¬ n ∣ l.length →
      ∃ c, (chunksOf n l).getLast? = some c ∧ c.length = l.length % n := by
  refine list_chunk_induction n _ hn ?_ ?_
  · intro h
    simp at h
  · intro l hl ih hnd
    rw [chunksOf_eq_cons n hn l hl]
    rcases le_or_lt l.length n with hle | hlt
    · have hdrop : l.drop n = [] := List.drop_eq_nil_of_le hle
      rw [hdrop, chunksOf_nil]
      refine ⟨l.take n, List.getLast?_singleton _, ?_⟩
      have hne : l.length ≠ n := fun he => hnd (he ▸ dvd_refl n)
      have hlt' : l.length < n := by omega
      rw [List.take_of_length_le hle, Nat.mod_eq_of_lt hlt']
    · have hdropne : l.drop n ≠ [] := by
        intro he
        have := congrArg List.length he
        simp only [List.length_drop, List.length_nil] at this
        omega
      have hnd' : ¬ n ∣ (l.drop n).length := by
        rw [List.length_drop]
        intro hd
        exact hnd (by
          have : l.length = (l.length - n) + n := by omega
          rw [this]
          exact Nat.dvd_add hd (dvd_refl n))
      obtain ⟨c, hc, hclen⟩ := ih hnd'
      have htail : chunksOf n (l.drop n) ≠ [] := by
        rw [ne_eq, chunksOf_eq_nil_iff]
        exact hdropne
      obtain ⟨c0, cs, hsplit⟩ := List.exists_cons_of_ne_nil htail
      refine ⟨c, ?_, ?_⟩
      · rw [hsplit, List.getLast?_cons_cons, ← hsplit]
        exact hc
      · rw [hclen, List.length_drop, ← Nat.mod_eq_sub_mod (by omega)]

theorem chunksOf_getLast?_sub (n : Nat) (hn : 1 ≤ n) :
    ∀ l : List α, l ≠ [] →
      ∃ c, (chunksOf n l).getLast? = some c ∧
        c.length = l.length - n * ((chunksOf n l).length - 1) := by
  refine list_chunk_induction n _ hn ?_ ?_
  · intro h
    exact absurd rfl h
  · intro l hl ih _
    rw [chunksOf_eq_cons n hn l hl]
    rcases le_or_lt l.length n with hle | hlt
    · have hdrop : l.drop n = [] := List.drop_eq_nil_of_le hle
      rw [hdrop, chunksOf_nil]
      refine ⟨l.take n, List.getLast?_singleton _, ?_⟩
      rw [List.take_of_length_le hle]
      simp
    · have hdropne : l.drop n ≠ [] := by
        intro he
        have := congrArg List.length he
        simp only [List.length_drop, List.length_nil] at this
        omega
      obtain ⟨c, hc, hclen⟩ := ih hdropne
      have htail : chunksOf n (l.drop n) ≠ [] := by
        rw [ne_eq, chunksOf_eq_nil_iff]
        exact hdropne
      obtain ⟨c0, cs, hsplit⟩ := List.exists_cons_of_ne_nil htail
      refine ⟨c, ?_, ?_⟩
      · rw [hsplit, List.getLast?_cons_cons, ← hsplit]
        exact hc
      · rw [List.length_cons, List.length_drop] at *
        have hK1 : 1 ≤ (chunksOf n (l.drop n)).length := by
          rw [hsplit]
          simp
        have he : n * (chunksOf n (l.drop n)).length =
            n * ((chunksOf n (l.drop n)).length - 1) + n := by
          conv_lhs => rw [show (chunksOf n (l.drop n)).length =
            ((chunksOf n (l.drop n)).length - 1) + 1 by omega]
          rw [Nat.mul_add, Nat.mul_one]
        simp only [Nat.add_sub_cancel] at *
        omega

theorem chunksOf_mem_mem (n : Nat) (hn : 1 ≤ n) :
    ∀ l : List α, ∀ c ∈ chunksOf n l, ∀ x ∈ c, x ∈ l := by
  refine list_chunk_induction n _ hn ?_ ?_
  · intro c hc
    rw [chunksOf_nil] at hc
    cases hc
  · intro l hl ih c hc x hx
    rw [chunksOf_eq_cons n hn l hl] at hc
    rcases List.mem_cons.mp hc with rfl | hc
    · exact List.mem_of_mem_take hx
    · exact List.mem_of_mem_drop (ih c hc x hx)

/-! ### Claim C7: sub-byte bit-packing round trip -/

theorem take_unpackBits_packBits (nbits : Nat) (s : List Nat)
    (hspb1 : 1 ≤ 8 / nbits) (hs : ∀ x ∈ s, x < 2 ^ nbits) :
    (unpackBits nbits (packBits nbits s)).take s.length = s := by
  have hB : 0 < 2 ^ nbits := pow_pos (by omega) _
  · have hmap : unpackBits nbits (packBits nbits s) =
        ((chunksOf (8 / nbits) s).map (padTo (8 / nbits))).flatten := by
      unfold unpackBits packBits
      rw [List.flatMap_def, List.map_map]
      congr 1
      refine List.map_congr_left fun c hc => ?_
      have hlt : ∀ x ∈ padTo (8 / nbits) c, x < 2 ^ nbits := by
        intro x hx
        rcases List.mem_append.mp hx with hx | hx
        · exact hs x (chunksOf_mem_mem _ hspb1 s c hc x hx)
        · rw [List.eq_of_mem_replicate hx]
          exact hB
      have hlen : (padTo (8 / nbits) c).length = 8 / nbits := by
        rw [padTo, List.length_append, List.length_replicate]
        have := chunksOf_mem_length_le _ hspb1 s c hc
        omega
      show unpackGroup (2 ^ nbits) (8 / nbits)
          (packGroup (2 ^ nbits) (padTo (8 / nbits) c)) = padTo (8 / nbits) c
      have h := unpack_packGroup (2 ^ nbits) (padTo (8 / nbits) c) hB hlt
      rwa [hlen] at h
    obtain ⟨k, hk⟩ := flatten_map_padTo_chunksOf (8 / nbits) hspb1 s
    rw [hmap, hk, List.take_left]

theorem packBits_getLast?_mod (nbits : Nat) (s : List Nat)
    (hspb1 : 1 ≤ 8 / nbits) (hnd : ¬ (8 / nbits) ∣ s.length) :
    ∀ b, (packBits nbits s).getLast? = some b →
      b % 2 ^ (nbits * (8 / nbits - s.length % (8 / nbits))) = 0 := by
  intro b hb
  obtain ⟨c, hc, hclen⟩ := chunksOf_getLast?_mod (8 / nbits) hspb1 s hnd
  rw [packBits, List.getLast?_map, hc, Option.map_some'] at hb
  have hbeq : b = packGroup (2 ^ nbits) (padTo (8 / nbits) c) :=
    (Option.some.inj hb).symm
  rw [hbeq, padTo, packGroup_append_zeros, pow_mul, hclen]
  exact Nat.mul_mod_left _ _

/-- Claim C7: for `nbits ∈ {1, 2, 4}` (so `8 / nbits` samples per byte,
most-significant-sample-first), packing a batch of samples and unpacking
the bytes again reproduces the original sample values exactly; and for a
batch whose length is not a multiple of `8 / nbits`, the unused low bits
of the final byte are zero. -/
theorem c7_bit_packing_round_trip (nbits : Nat) (s : List Nat)
    (hn : nbits = 1 ∨ nbits = 2 ∨ nbits = 4)
    (hs : ∀ x ∈ s, x < 2 ^ nbits) :
    (unpackBits nbits (packBits nbits s)).take s.length = s ∧
    (¬ (8 / nbits) ∣ s.length →
      ∀ b, (packBits nbits s).getLast? = some b →
        b % 2 ^ (nbits * (8 / nbits - s.length % (8 / nbits))) = 0) := by
  have hspb1 : 1 ≤ 8 / nbits := by rcases hn with rfl | rfl | rfl <;> decide
  exact ⟨take_unpackBits_packBits nbits s hspb1 hs,
    fun hnd => packBits_getLast?_mod nbits s hspb1 hnd⟩

/-- Witness for claim C7: a 2-bit batch of five samples (not a multiple of
the four samples per byte) round-trips exactly, and the final byte's six
unused low bits are zero. -/
theorem c7_witness :
    (unpackBits 2 (packBits 2 [3, 2, 1, 0, 3])).take 5 = [3, 2, 1, 0, 3] ∧
    (¬ 4 ∣ 5 → ∀ b, (packBits 2 [3, 2, 1, 0, 3]).getLast? = some b →
      b % 2 ^ (2 * (4 - 5 % 4)) = 0) :=
  c7_bit_packing_round_trip 2 [3, 2, 1, 0, 3] (by decide) (by decide)

/-! ### Data-pump lemmas -/

theorem except_bind_ok {α β : Type} (a : α) (f : α → Except WriterError β) :
    (Except.ok a >>= f) = f a := rfl

theorem rowAt_length (y : Your) (i : Nat) :
    (y.rowAt i).length = y.your_header.nchans := by
  simp [Your.rowAt]

theorem rows_length (y : Your) (start count : Nat) :
    (y.rows start count).length = count := by
  simp [Your.rows]

theorem rows_append (y : Your) (start a b : Nat) :
    y.rows start (a + b) = y.rows start a ++ y.rows (start + a) b := by
  unfold Your.rows
  rw [List.range_add, List.map_append, List.map_map]
  congr 1
  refine List.map_congr_left fun i _ => ?_
  show y.rowAt (start + (a + i)) = y.rowAt (start + a + i)
  rw [Nat.add_assoc]

theorem get_data_eq (y : Your) (start count : Nat)
    (h : start + count ≤ y.your_header.nspectra) :
    y.get_data start count = .ok (y.rows start count) := by
  unfold Your.get_data
  rw [if_pos h]

theorem sliceChans_append (cmin cmax : Nat) (a b : List (List Nat)) :
    sliceChans cmin cmax (a ++ b) = sliceChans cmin cmax a ++ sliceChans cmin cmax b :=
  List.map_append _ a b

/-- The chunked pump produces exactly the whole-window read, restricted to
the channel window, for every chunk size. -/
theorem pumpLoop_ok (y : Your) (cmin cmax csize : Nat) :
    ∀ count cursor, cursor + count ≤ y.your_header.nspectra →
      pumpLoop y cmin cmax csize cursor count =
        .ok (sliceChans cmin cmax (y.rows cursor count)) := by
  intro count
  induction count using Nat.strong_induction_on with
  | _ count ih =>
    intro cursor hle
    match count with
    | 0 =>
      rw [pumpLoop]
      simp [Your.rows, sliceChans]
    | r + 1 =>
      have hb1 : 1 ≤ min (max csize 1) (r + 1) := by omega
      have hble : min (max csize 1) (r + 1) ≤ r + 1 := by omega
      have hread : y.get_data cursor (min (max csize 1) (r + 1)) =
          .ok (y.rows cursor (min (max csize 1) (r + 1))) :=
        get_data_eq _ _ _ (by omega)
      have hrec : pumpLoop y cmin cmax csize (cursor + min (max csize 1) (r + 1))
          (r + 1 - min (max csize 1) (r + 1)) =
          .ok (sliceChans cmin cmax (y.rows (cursor + min (max csize 1) (r + 1))
            (r + 1 - min (max csize 1) (r + 1)))) :=
        ih _ (by omega) _ (by omega)
      rw [pumpLoop]
      simp only [hread, hrec, except_bind_ok]
      have hsplit : y.rows cursor (r + 1) =
          y.rows cursor (min (max csize 1) (r + 1)) ++
            y.rows (cursor + min (max csize 1) (r + 1))
              (r + 1 - min (max csize 1) (r + 1)) := by
        rw [← rows_append]
        congr 1
        omega
      rw [hsplit, sliceChans_append]

/-! ### Sample-stream serialization round trip -/

theorem encodeFixed_length (width v : Nat) : (encodeFixed width v).length = width := by
  rw [encodeFixed, List.length_reverse, unpackGroup_length]

theorem decodeFixed_encodeFixed (width v : Nat) (hv : v < 256 ^ width) :
    decodeFixed (encodeFixed width v) = v := by
  rw [decodeFixed, encodeFixed, List.reverse_reverse]
  exact pack_unpackGroup 256 (by omega) width v hv

/-- Decoding a serialized batch recovers it exactly, for every supported
bit depth, provided every sample fits the depth. -/
theorem decodeSamples_encodeSamples (nbits : Nat) (s : List Nat)
    (hn : nbits = 1 ∨ nbits = 2 ∨ nbits = 4 ∨ nbits = 8 ∨ nbits = 16 ∨ nbits = 32)
    (hs : ∀ x ∈ s, x < 2 ^ nbits) :
    decodeSamples nbits s.length (encodeSamples nbits s) = s := by
  by_cases h8 : nbits < 8
  · rw [decodeSamples, encodeSamples, if_pos h8, if_pos h8]
    have hspb1 : 1 ≤ 8 / nbits := by
      rcases hn with rfl | rfl | rfl | rfl | rfl | rfl <;> first | decide | omega
    exact take_unpackBits_packBits nbits s hspb1 hs
  · rw [decodeSamples, encodeSamples, if_neg h8, if_neg h8]
    have hw : 8 * (nbits / 8) = nbits := by
      rcases hn with rfl | rfl | rfl | rfl | rfl | rfl <;> first | omega | decide
    have hw1 : 1 ≤ nbits / 8 := by omega
    rw [List.flatMap_def]
    rw [chunksOf_flatten (nbits / 8) hw1 _ ?hlen]
    case hlen =>
      intro r hr
      obtain ⟨v, hv, rfl⟩ := List.mem_map.mp hr
      exact encodeFixed_length _ _
    rw [List.map_map]
    have hid : ∀ v ∈ s, (decodeFixed ∘ encodeFixed (nbits / 8)) v = id v := by
      intro v hv
      show decodeFixed (encodeFixed (nbits / 8) v) = v
      refine decodeFixed_encodeFixed _ _ ?_
      have : (256 : Nat) ^ (nbits / 8) = 2 ^ nbits := by
        rw [show (256 : Nat) = 2 ^ 8 from rfl, ← pow_mul, hw]
      rw [this]
      exact hs v hv
    rw [List.map_congr_left hid, List.map_id]

theorem flatten_length_const (k : Nat) (rows : List (List Nat))
    (h : ∀ r ∈ rows, r.length = k) : rows.flatten.length = rows.length * k := by
  induction rows with
  | nil => simp
  | cons r rest ih =>
    rw [List.flatten_cons, List.length_append, List.length_cons,
      h r (List.mem_cons_self r rest), ih fun x hx => h x (List.mem_cons_of_mem _ hx)]
    ring

theorem sliceChans_row_length (cmin cmax C : Nat) (hcx : cmax ≤ C)
    (rows : List (List Nat)) (h : ∀ r ∈ rows, r.length = C) :
    ∀ r ∈ sliceChans cmin cmax rows, r.length = cmax - cmin := by
  intro r hr
  obtain ⟨r0, hr0, rfl⟩ := List.mem_map.mp hr
  rw [List.length_take, List.length_drop, h r0 hr0]
  have : cmax - cmin ≤ C - cmin := by omega
  omega

theorem rows_row_length (y : Your) (start count : Nat) :
    ∀ r ∈ y.rows start count, r.length = y.your_header.nchans := by
  intro r hr
  obtain ⟨i, _, rfl⟩ := List.mem_map.mp hr
  exact rowAt_length y _

theorem rows_mem_lt (y : Your) (start count : Nat)
    (hdat : ∀ i, i < y.your_header.nspectra → ∀ j, j < y.your_header.nchans →
      y.dat i j < 2 ^ y.your_header.nbits)
    (h : start + count ≤ y.your_header.nspectra) :
    ∀ r ∈ y.rows start count, ∀ x ∈ r, x < 2 ^ y.your_header.nbits := by
  intro r hr x hx
  obtain ⟨i, hi, rfl⟩ := List.mem_map.mp hr
  obtain ⟨j, hj, rfl⟩ := List.mem_map.mp hx
  have hi' := List.mem_range.mp hi
  have hj' := List.mem_range.mp hj
  exact hdat _ (by omega) _ hj'

theorem sliceChans_mem_lt (cmin cmax : Nat) (rows : List (List Nat)) (bound : Nat)
    (h : ∀ r ∈ rows, ∀ x ∈ r, x < bound) :
    ∀ r ∈ sliceChans cmin cmax rows, ∀ x ∈ r, x < bound := by
  intro r hr x hx
  obtain ⟨r0, hr0, rfl⟩ := List.mem_map.mp hr
  exact h r0 hr0 x (List.mem_of_mem_drop (List.mem_of_mem_take hx))

/-! ### Claims C2, C3, C8: the Filterbank writer -/

/-- Claim C2: for every valid window, the Filterbank output written by
`to_fil` has a header whose channel count equals `cmax - cmin`, whose
first-channel frequency equals the source `fch1` shifted by `cmin × foff`,
and whose spectra count equals the resolved window count. -/
theorem c2_filterbank_header (w : Writer) (env : Env) (win : Window)
    (hw : w.resolveWindow = .ok win) :
    ∃ f, w.to_fil env = .ok f ∧
      f.header.nchans = win.cmax - win.cmin ∧
      f.header.fch1 =
        w.source.your_header.fch1 + (win.cmin : ℚ) * w.source.your_header.foff ∧
      f.header.nspectra = win.nsamp := by
  obtain ⟨hle, h1, hcc, hcx⟩ := resolveWindow_ok_inv _ _ _ _ _ _ win hw
  have hpump := pumpLoop_ok w.source win.cmin win.cmax w.chunk_size win.nsamp
    win.nstart hle
  refine ⟨{ header := filOutHeader w.source.your_header win,
            dataBytes := encodeSamples w.source.your_header.nbits
              (sliceChans win.cmin win.cmax
                (w.source.rows win.nstart win.nsamp)).flatten }, ?_, rfl, rfl, rfl⟩
  simp only [Writer.to_fil, hw, except_bind_ok, hpump]

/-- Witness for claim C2 at the spec's concrete scenario: window
`{start = 0, count = 10, cmin = 10, cmax = 90}` over the 90-channel
example source. -/
theorem c2_witness :
    ∃ f, exWriter.to_fil exEnv = .ok f ∧
      f.header.nchans = (⟨0, 10, 10, 90⟩ : Window).cmax -
        (⟨0, 10, 10, 90⟩ : Window).cmin ∧
      f.header.fch1 = exWriter.source.your_header.fch1 +
        ((⟨0, 10, 10, 90⟩ : Window).cmin : ℚ) * exWriter.source.your_header.foff ∧
      f.header.nspectra = (⟨0, 10, 10, 90⟩ : Window).nsamp :=
  c2_filterbank_header exWriter exEnv ⟨0, 10, 10, 90⟩ (by decide)

/-- Claim C3: for every valid window, writing a Filterbank file and
reading it back through the reader interface yields sample data
bit-identical to the source's `read(start, count)` restricted to channels
`[cmin, cmax)`. -/
theorem c3_filterbank_round_trip (w : Writer) (env : Env) (win : Window)
    (hw : w.resolveWindow = .ok win)
    (hbits : w.source.your_header.nbits = 1 ∨ w.source.your_header.nbits = 2 ∨
      w.source.your_header.nbits = 4 ∨ w.source.your_header.nbits = 8 ∨
      w.source.your_header.nbits = 16 ∨ w.source.your_header.nbits = 32)
    (hdat : ∀ i, i < w.source.your_header.nspectra →
      ∀ j, j < w.source.your_header.nchans →
        w.source.dat i j < 2 ^ w.source.your_header.nbits) :
    ∃ f, w.to_fil env = .ok f ∧
      f.get_data 0 win.nsamp =
        (w.source.get_data win.nstart win.nsamp).map
          (sliceChans win.cmin win.cmax) := by
  obtain ⟨hle, h1, hcc, hcx⟩ := resolveWindow_ok_inv _ _ _ _ _ _ win hw
  have hpump := pumpLoop_ok w.source win.cmin win.cmax w.chunk_size win.nsamp
    win.nstart hle
  set rows0 := sliceChans win.cmin win.cmax (w.source.rows win.nstart win.nsamp)
    with hrows0
  have hrowlen : ∀ r ∈ rows0, r.length = win.cmax - win.cmin :=
    sliceChans_row_length _ _ _ hcx _ (rows_row_length _ _ _)
  have hlen0 : rows0.length = win.nsamp := by
    rw [hrows0, sliceChans, List.length_map, rows_length]
  have hflat : rows0.flatten.length = win.nsamp * (win.cmax - win.cmin) := by
    rw [flatten_length_const _ _ hrowlen, hlen0]
  have hmem : ∀ x ∈ rows0.flatten, x < 2 ^ w.source.your_header.nbits := by
    intro x hx
    obtain ⟨r, hr, hxr⟩ := List.mem_flatten.mp hx
    exact sliceChans_mem_lt _ _ _ _ (rows_mem_lt _ _ _ hdat hle) r hr x hxr
  refine ⟨{ header := filOutHeader w.source.your_header win,
            dataBytes := encodeSamples w.source.your_header.nbits rows0.flatten },
    ?_, ?_⟩
  · simp only [Writer.to_fil, hw, except_bind_ok, hpump]
  · rw [FilFile.get_data, FilFile.decodedRows]
    simp only [filOutHeader, Nat.zero_add]
    rw [if_pos (Nat.le_refl _), ← hflat,
      decodeSamples_encodeSamples _ _ hbits hmem,
      chunksOf_flatten _ (by omega) _ hrowlen, List.drop_zero]
    have htake : rows0.take win.nsamp = rows0 := by
      rw [← hlen0]
      exact List.take_length rows0
    rw [htake, get_data_eq _ _ _ hle]
    rfl

/-- Witness for claim C3: a 2-bit source, window
`{start = 1, count = 3, cmin = 1, cmax = 3}`, pumped two spectra at a
time; the written file reads back to exactly the sliced source data. -/
theorem c3_witness :
    ∃ f, exWriter2.to_fil exEnv = .ok f ∧
      f.get_data 0 (⟨1, 3, 1, 3⟩ : Window).nsamp =
        (exWriter2.source.get_data (⟨1, 3, 1, 3⟩ : Window).nstart
          (⟨1, 3, 1, 3⟩ : Window).nsamp).map
          (sliceChans (⟨1, 3, 1, 3⟩ : Window).cmin (⟨1, 3, 1, 3⟩ : Window).cmax) :=
  c3_filterbank_round_trip exWriter2 exEnv ⟨1, 3, 1, 3⟩ (by decide) (by decide)
    (by decide)

/-- Claim C8: the Filterbank writer is deterministic: two `to_fil`
invocations of the same writer configuration over the same source produce
identical output files, regardless of the environment (wall-clock state)
either call runs in. -/
theorem c8_filterbank_deterministic (w : Writer) (env1 env2 : Env) :
    w.to_fil env1 = w.to_fil env2 := rfl

/-! ### Write-call success lemmas -/

theorem to_fil_ok (w : Writer) (env : Env) (win : Window)
    (hw : w.resolveWindow = .ok win) :
    w.to_fil env = .ok
      { header := filOutHeader w.source.your_header win
        dataBytes := encodeSamples w.source.your_header.nbits
          (sliceChans win.cmin win.cmax
            (w.source.rows win.nstart win.nsamp)).flatten } := by
  obtain ⟨hle, _, _, _⟩ := resolveWindow_ok_inv _ _ _ _ _ _ win hw
  have hpump := pumpLoop_ok w.source win.cmin win.cmax w.chunk_size win.nsamp
    win.nstart hle
  simp only [Writer.to_fil, hw, except_bind_ok, hpump]

theorem to_fits_ok (w : Writer) (env : Env) (win : Window)
    (hw : w.resolveWindow = .ok win)
    (hbits : w.source.your_header.nbits = 8 ∨ w.source.your_header.nbits = 16 ∨
      w.source.your_header.nbits = 32) :
    w.to_fits env = .ok
      { info := mkObsInfo w.source.your_header win env.now
        nsblk := w.nsblk
        subints := mkSubints w.nsblk (win.cmax - win.cmin)
          (sliceChans win.cmin win.cmax
            (w.source.rows win.nstart win.nsamp)) } := by
  obtain ⟨hle, _, _, _⟩ := resolveWindow_ok_inv _ _ _ _ _ _ win hw
  have hpump := pumpLoop_ok w.source win.cmin win.cmax w.chunk_size win.nsamp
    win.nstart hle
  simp only [Writer.to_fits, hw, except_bind_ok]
  rw [if_pos hbits]
  simp only [hpump, except_bind_ok]

theorem sum_map_const_nat {β : Type} (l : List β) (k : Nat) (f : β → Nat)
    (h : ∀ x ∈ l, f x = k) : (l.map f).sum = l.length * k := by
  induction l with
  | nil => simp
  | cons x xs ih =>
    rw [List.map_cons, List.sum_cons, h x (List.mem_cons_self x xs),
      ih fun y hy => h y (List.mem_cons_of_mem _ hy), List.length_cons]
    ring

/-! ### Claim C4: PSRFITS subintegration layout -/

/-- Claim C4: for every valid window, the PSRFITS output has exactly
`ceil(count / nsblk)` subintegration rows; the last subint declares
`count - nsblk * (rows - 1)` valid samples; and every subint's data block
holds exactly `nsblk` spectra (the short final one zero-padded), so the
data block holds `rows * nsblk` spectra in total. -/
theorem c4_psrfits_subints (w : Writer) (env : Env) (win : Window)
    (hw : w.resolveWindow = .ok win)
    (hbits : w.source.your_header.nbits = 8 ∨ w.source.your_header.nbits = 16 ∨
      w.source.your_header.nbits = 32)
    (hnsblk : 1 ≤ w.nsblk) :
    ∃ ff, w.to_fits env = .ok ff ∧
      ff.subints.length = (win.nsamp + w.nsblk - 1) / w.nsblk ∧
      (∃ last, ff.subints.getLast? = some last ∧
        last.nvalid = win.nsamp - w.nsblk * (ff.subints.length - 1)) ∧
      (∀ s ∈ ff.subints, s.data.length = w.nsblk) ∧
      (ff.subints.map fun s => s.data.length).sum =
        ff.subints.length * w.nsblk := by
  obtain ⟨hle, h1, hcc, hcx⟩ := resolveWindow_ok_inv _ _ _ _ _ _ win hw
  set rows0 := sliceChans win.cmin win.cmax (w.source.rows win.nstart win.nsamp)
    with hrows0
  have hlen0 : rows0.length = win.nsamp := by
    rw [hrows0, sliceChans, List.length_map, rows_length]
  have hdata : ∀ s ∈ mkSubints w.nsblk (win.cmax - win.cmin) rows0,
      s.data.length = w.nsblk := by
    intro s hs
    rw [mkSubints] at hs
    obtain ⟨g, hg, rfl⟩ := List.mem_map.mp hs
    have hgle : g.length ≤ w.nsblk := chunksOf_mem_length_le _ hnsblk rows0 g hg
    simp only [List.length_append, List.length_replicate]
    omega
  refine ⟨{ info := mkObsInfo w.source.your_header win env.now
            nsblk := w.nsblk
            subints := mkSubints w.nsblk (win.cmax - win.cmin) rows0 },
    to_fits_ok w env win hw hbits, ?_, ?_, hdata, ?_⟩
  · rw [mkSubints, List.length_map, chunksOf_length _ hnsblk, hlen0]
  · have hne : rows0 ≠ [] := by
      intro hnil
      rw [hnil] at hlen0
      simp only [List.length_nil] at hlen0
      omega
    obtain ⟨c, hc, hclen⟩ := chunksOf_getLast?_sub w.nsblk hnsblk rows0 hne
    refine ⟨{ nvalid := c.length
              data := c ++ List.replicate (w.nsblk - c.length)
                (List.replicate (win.cmax - win.cmin) 0) }, ?_, ?_⟩
    · rw [mkSubints, List.getLast?_map, hc, Option.map_some']
    · show c.length = win.nsamp -
        w.nsblk * ((mkSubints w.nsblk (win.cmax - win.cmin) rows0).length - 1)
      rw [mkSubints, List.length_map, hclen, hlen0]
  · rw [mkSubints, List.map_map]
    rw [sum_map_const_nat _ w.nsblk _ ?hconst]
    case hconst =>
      intro g hg
      have hgle : g.length ≤ w.nsblk := chunksOf_mem_length_le _ hnsblk rows0 g hg
      simp only [Function.comp_apply, List.length_append, List.length_replicate]
      omega
    rw [List.length_map]

/-- Witness for claim C4: the example writer with window count 10 and
`nsblk = 4` yields 3 subints, the last declaring 2 valid samples, all data
blocks padded to 4 spectra. -/
theorem c4_witness :
    ∃ ff, ({ exWriter with c_min := some 0, c_max := some 90 } : Writer).to_fits
        exEnv = .ok ff ∧
      ff.subints.length = ((⟨0, 10, 0, 90⟩ : Window).nsamp + 4 - 1) / 4 ∧
      (∃ last, ff.subints.getLast? = some last ∧
        last.nvalid = (⟨0, 10, 0, 90⟩ : Window).nsamp - 4 * (ff.subints.length - 1)) ∧
      (∀ s ∈ ff.subints, s.data.length = 4) ∧
      (ff.subints.map fun s => s.data.length).sum = ff.subints.length * 4 :=
  c4_psrfits_subints { exWriter with c_min := some 0, c_max := some 90 } exEnv
    ⟨0, 10, 0, 90⟩ (by decide) (by decide) (by decide)

/-! ### Claim C6: the MJD day/second/sub-second split -/

/-- Claim C6: the ObservationInfoBuilder splits the start-time MJD so that
`stt_imjd` is the integer day, `stt_smjd` the whole seconds of the
fractional day (in `[0, 86400)`), and `stt_offs` the sub-second remainder
in `[0, 1)`; in particular
`stt_imjd + (stt_smjd + stt_offs) / 86400` reconstructs the source MJD
exactly, with the day split taken before the scaling to seconds. -/
theorem c6_mjd_split (h : UnifiedHeader) (win : Window) (now : ℚ) :
    (mkObsInfo h win now).stt_imjd = ⌊h.tstart⌋ ∧
    (mkObsInfo h win now).stt_smjd = ⌊(h.tstart - (⌊h.tstart⌋ : ℚ)) * 86400⌋ ∧
    0 ≤ (mkObsInfo h win now).stt_offs ∧
    (mkObsInfo h win now).stt_offs < 1 ∧
    0 ≤ (mkObsInfo h win now).stt_smjd ∧
    (mkObsInfo h win now).stt_smjd < 86400 ∧
    ((mkObsInfo h win now).stt_imjd : ℚ) +
      (((mkObsInfo h win now).stt_smjd : ℚ) + (mkObsInfo h win now).stt_offs) /
        86400 = h.tstart := by
  have hfr : h.tstart - (⌊h.tstart⌋ : ℚ) = Int.fract h.tstart :=
    Int.self_sub_floor h.tstart
  have hoffs : (mkObsInfo h win now).stt_offs =
      (h.tstart - (⌊h.tstart⌋ : ℚ)) * 86400 -
        ((⌊(h.tstart - (⌊h.tstart⌋ : ℚ)) * 86400⌋ : ℤ) : ℚ) := rfl
  have hds0 : 0 ≤ (h.tstart - (⌊h.tstart⌋ : ℚ)) * 86400 := by
    rw [hfr]
    exact mul_nonneg (Int.fract_nonneg _) (by norm_num)
  have hds1 : (h.tstart - (⌊h.tstart⌋ : ℚ)) * 86400 < 86400 := by
    rw [hfr]
    calc Int.fract h.tstart * 86400 < 1 * 86400 :=
          mul_lt_mul_of_pos_right (Int.fract_lt_one _) (by norm_num)
      _ = 86400 := one_mul _
  refine ⟨rfl, rfl, ?_, ?_, ?_, ?_, ?_⟩
  · rw [hoffs, Int.self_sub_floor]
    exact Int.fract_nonneg _
  · rw [hoffs, Int.self_sub_floor]
    exact Int.fract_lt_one _
  · exact Int.floor_nonneg.mpr hds0
  · exact Int.floor_lt.mpr (by exact_mod_cast hds1)
  · rw [hoffs]
    show (⌊h.tstart⌋ : ℚ) +
      (((⌊(h.tstart - (⌊h.tstart⌋ : ℚ)) * 86400⌋ : ℤ) : ℚ) +
        ((h.tstart - (⌊h.tstart⌋ : ℚ)) * 86400 -
          ((⌊(h.tstart - (⌊h.tstart⌋ : ℚ)) * 86400⌋ : ℤ) : ℚ))) / 86400 = h.tstart
    have hsum : ((⌊(h.tstart - (⌊h.tstart⌋ : ℚ)) * 86400⌋ : ℤ) : ℚ) +
        ((h.tstart - (⌊h.tstart⌋ : ℚ)) * 86400 -
          ((⌊(h.tstart - (⌊h.tstart⌋ : ℚ)) * 86400⌋ : ℤ) : ℚ)) =
        (h.tstart - (⌊h.tstart⌋ : ℚ)) * 86400 := by ring
    rw [hsum, mul_div_cancel_right₀ _ (by norm_num : (86400 : ℚ) ≠ 0)]
    ring

/-! ### Claim C9: the borrowed source is never mutated -/

/-- Claim C9: no conversion call mutates the borrowed reader: after either
write completes, the world holds the same source object, so reading the
source through the same reader yields the same header and the same data as
before the write. -/
theorem c9_source_not_mutated (world : World) (w : Writer) (env : Env)
    (win : Window)
    (hw : ({ w with source := world.source } : Writer).resolveWindow = .ok win)
    (hbits : world.source.your_header.nbits = 8 ∨
      world.source.your_header.nbits = 16 ∨
      world.source.your_header.nbits = 32) :
    (∃ w1, writeFilWorld world w env = .ok w1 ∧ w1.source = world.source ∧
      w1.source.your_header = world.source.your_header ∧
      ∀ s c, w1.source.get_data s c = world.source.get_data s c) ∧
    (∃ w2, writeFitsWorld world w env = .ok w2 ∧ w2.source = world.source ∧
      w2.source.your_header = world.source.your_header ∧
      ∀ s c, w2.source.get_data s c = world.source.get_data s c) := by
  constructor
  · refine ⟨{ world with filFiles := world.filFiles ++
        [(w.outdir ++ "/" ++ w.outname ++ ".fil",
          { header := filOutHeader world.source.your_header win
            dataBytes := encodeSamples world.source.your_header.nbits
              (sliceChans win.cmin win.cmax
                (world.source.rows win.nstart win.nsamp)).flatten })] },
      ?_, rfl, rfl, fun s c => rfl⟩
    rw [writeFilWorld, to_fil_ok _ env win hw]
  · refine ⟨{ world with fitsFiles := world.fitsFiles ++
        [(w.outdir ++ "/" ++ w.outname ++ ".fits",
          { info := mkObsInfo world.source.your_header win env.now
            nsblk := w.nsblk
            subints := mkSubints w.nsblk (win.cmax - win.cmin)
              (sliceChans win.cmin win.cmax
                (world.source.rows win.nstart win.nsamp)) })] },
      ?_, rfl, rfl, fun s c => rfl⟩
    rw [writeFitsWorld, to_fits_ok _ env win hw hbits]

/-- Witness for claim C9 on the example world: both writes succeed and
leave the source untouched. -/
theorem c9_witness :
    (∃ w1, writeFilWorld exWorld exWriter exEnv = .ok w1 ∧
      w1.source = exWorld.source ∧
      w1.source.your_header = exWorld.source.your_header ∧
      ∀ s c, w1.source.get_data s c = exWorld.source.get_data s c) ∧
    (∃ w2, writeFitsWorld exWorld exWriter exEnv = .ok w2 ∧
      w2.source = exWorld.source ∧
      w2.source.your_header = exWorld.source.your_header ∧
      ∀ s c, w2.source.get_data s c = exWorld.source.get_data s c) :=
  c9_source_not_mutated exWorld exWriter exEnv ⟨0, 10, 10, 90⟩ (by decide)
    (by decide)

/-! ### Claim C10: configuration attributes are read at call time -/

/-- Claim C10: the writer's configuration fields are plain mutable
attributes: reassigning `c_min`, `c_max` and `outname` after construction
changes the stored values, and a subsequent write call behaves exactly
like a writer constructed with the reassigned values — the constructor's
values for those fields no longer matter. -/
theorem c10_call_time_attributes (src : Your) (ns : Option Nat) (sa : Option Int)
    (cmin0 cmax0 v1 v2 : Option Nat) (od nm0 nm1 : String) (cs nb : Nat)
    (env : Env) :
    ((((Writer.mk src ns sa cmin0 cmax0 od nm0 cs nb).setCMin v1).setCMax
        v2).setOutname nm1).c_min = v1 ∧
    ((((Writer.mk src ns sa cmin0 cmax0 od nm0 cs nb).setCMin v1).setCMax
        v2).setOutname nm1).c_max = v2 ∧
    ((((Writer.mk src ns sa cmin0 cmax0 od nm0 cs nb).setCMin v1).setCMax
        v2).setOutname nm1).outname = nm1 ∧
    ((((Writer.mk src ns sa cmin0 cmax0 od nm0 cs nb).setCMin v1).setCMax
        v2).setOutname nm1) = Writer.mk src ns sa v1 v2 od nm1 cs nb ∧
    ((((Writer.mk src ns sa cmin0 cmax0 od nm0 cs nb).setCMin v1).setCMax
        v2).setOutname nm1).to_fil env =
      (Writer.mk src ns sa v1 v2 od nm1 cs nb).to_fil env ∧
    ((((Writer.mk src ns sa cmin0 cmax0 od nm0 cs nb).setCMin v1).setCMax
        v2).setOutname nm1).to_fits env =
      (Writer.mk src ns sa v1 v2 od nm1 cs nb).to_fits env :=
  ⟨rfl, rfl, rfl, rfl, rfl, rfl⟩

end your
